import Mathlib

/-!
Verification of the Warp tile-kernel harness slice: the tile copy / unary map /
binary map test kernels (src/warp/tests/test_tile.py), the tiled Cholesky
example driver (src/warp/examples/tile/example_tile_cholesky.py) and the
launch-API benchmark kernels (src/benchmarks/benchmarks/launch_api.py).

The three Python files are consumers of the Warp framework; the framework
primitives (wp.tile_load, wp.tile_store, wp.tile_map, wp.Tape, wp.launch,
wp.tile_cholesky, wp.tile_cholesky_solve) are not part of the provided source
slice, so they are modelled from the specification, while the kernels and
drivers themselves are embedded from the Python source.  Machine floats are
idealized as real numbers.
-/

set_option linter.unusedVariables false

namespace WarpTile

/-- A 2D array is modelled as a total function from (row, column) indices to
values; shape bounds are tracked separately in theorem hypotheses. -/
def Arr (α : Type*) : Type _ := Nat → Nat → α

/-- Modelled from the spec (§4.1, wp.tile_load, absent from the source slice):
given a 2D invocation index (i, j), a kernel computes a tile origin
(i·m, j·n) and requests a load of an m×n sub-block from a named input array at
that origin. -/
def tile_load {α : Type*} (A : Arr α) (i j m n : Nat) : Arr α :=
  fun r c => A (i * m + r) (j * n + c)

/-- The index set written by the tile store of invocation (i, j) with tile
extents m×n: the m×n block at origin (i·m, j·n). -/
def inTile (i j m n r c : Nat) : Prop :=
  i * m ≤ r ∧ r < i * m + m ∧ j * n ≤ c ∧ c < j * n + n

instance (i j m n r c : Nat) : Decidable (inTile i j m n r c) := by
  unfold inTile
  infer_instance

/-- Modelled from the spec (§4.1, wp.tile_store, absent from the source slice):
a tile store writes an m×n block back at origin (i·m, j·n) in an output array,
leaving all other elements untouched. -/
def tile_store {α : Type*} (B : Arr α) (i j m n : Nat) (t : Arr α) : Arr α :=
  fun r c => if inTile i j m n r c then t (r - i * m) (c - j * n) else B r c

/-- Modelled from the spec (§4.2, wp.tile_map on one tile, absent from the
source slice): produces a new tile of the same shape where every element is
f(element). -/
def tile_map {α β : Type*} (f : α → β) (t : Arr α) : Arr β :=
  fun r c => f (t r c)

/-- Modelled from the spec (§4.2, wp.tile_map on two same-shape tiles, absent
from the source slice): produces a new tile where every element is
f(a_elem, b_elem). -/
def tile_map2 {α β γ : Type*} (f : α → β → γ) (a : Arr α) (b : Arr β) : Arr γ :=
  fun r c => f (a r c) (b r c)

/-- Modelled from the spec (§5, wp.launch over a 2D grid, absent from the
source slice): every invocation index (i, j) of the grid runs once; since
invocations may communicate only through the disjoint-output-partition
invariant, the device-parallel execution is modelled as a sequential fold
over the grid indices. -/
def launch2 {S : Type*} (k : Nat → Nat → S → S) (gx gy : Nat) (s : S) : S :=
  (List.range gx).foldl (fun s i => (List.range gy).foldl (fun s j => k i j s) s) s

/-- Tile extent TILE_M from src/warp/tests/test_tile.py. -/
def TILE_M : Nat := 8

/-- Tile extent TILE_N from src/warp/tests/test_tile.py. -/
def TILE_N : Nat := 4

/-- The tile_copy kernel from src/warp/tests/test_tile.py: load the (i, j)
tile of A and store it at the same origin in B. -/
def tile_copy {α : Type*} (A : Arr α) : Nat → Nat → Arr α → Arr α :=
  fun i j B => tile_store B i j TILE_M TILE_N (tile_load A i j TILE_M TILE_N)

/-- The tile_unary_map kernel from src/warp/tests/test_tile.py: load the
(i, j) tile of the input, map f over it, store the result. -/
def tile_unary_map {α : Type*} (f : α → α) (input : Arr α) :
    Nat → Nat → Arr α → Arr α :=
  fun i j out =>
    tile_store out i j TILE_M TILE_N (tile_map f (tile_load input i j TILE_M TILE_N))

/-- The tile_binary_map kernel from src/warp/tests/test_tile.py: load the
(i, j) tiles of both inputs, map f over corresponding pairs, store the
result. -/
def tile_binary_map {α : Type*} (f : α → α → α) (input_a input_b : Arr α) :
    Nat → Nat → Arr α → Arr α :=
  fun i j out =>
    tile_store out i j TILE_M TILE_N
      (tile_map2 f (tile_load input_a i j TILE_M TILE_N)
        (tile_load input_b i j TILE_M TILE_N))

/-- Reading through a fold is unchanged when no step writes the read
location. -/
lemma foldl_read_preserve {S α : Type*} (read : S → α) (g : S → Nat → S) :
    ∀ (js : List Nat) (s : S), (∀ j s, j ∈ js → read (g s j) = read s) →
      read (js.foldl g s) = read s := by
  intro js
  induction js with
  | nil => intro s _; rfl
  | cons a rest ih =>
    intro s h
    rw [List.foldl_cons,
      ih _ (fun j s hj => h j s (List.mem_cons_of_mem a hj)),
      h a s (List.mem_cons_self a rest)]

/-- Reading through a fold in which exactly one step (index J, occurring once)
updates the read location by upd, and every other step leaves it unchanged,
yields upd of the initial value. -/
lemma foldl_read_write {S α : Type*} (read : S → α) (upd : α → α)
    (g : S → Nat → S) (J : Nat) :
    ∀ (js : List Nat) (s : S), js.Nodup → J ∈ js →
      (∀ s, read (g s J) = upd (read s)) →
      (∀ j s, j ∈ js → j ≠ J → read (g s j) = read s) →
      read (js.foldl g s) = upd (read s) := by
  intro js
  induction js with
  | nil => intro s _ hJ; exact absurd hJ (List.not_mem_nil J)
  | cons a rest ih =>
    intro s hnd hJ hset hskip
    rw [List.foldl_cons]
    by_cases ha : a = J
    · subst ha
      have hnotin : a ∉ rest := (List.nodup_cons.mp hnd).1
      rw [foldl_read_preserve read g rest _
        (fun j s hj => hskip j s (List.mem_cons_of_mem a hj)
          (fun hEq => hnotin (hEq ▸ hj)))]
      exact hset s
    · have hJr : J ∈ rest := by
        rcases List.mem_cons.mp hJ with h | h
        · exact absurd h.symm ha
        · exact h
      rw [ih (g s a) (List.nodup_cons.mp hnd).2 hJr hset
        (fun j s hj hne => hskip j s (List.mem_cons_of_mem a hj) hne),
        hskip a s (List.mem_cons_self a rest) ha]

/-- Per-location behaviour of a full 2D grid launch: if exactly the invocation
(I, J) of the grid updates the read location by upd and all other invocations
leave it unchanged, the launch as a whole updates it by upd. -/
lemma launch2_apply {S α : Type*} (k : Nat → Nat → S → S) (gx gy : Nat)
    (s0 : S) (read : S → α) (upd : α → α) (I J : Nat)
    (hI : I < gx) (hJ : J < gy)
    (hset : ∀ s, read (k I J s) = upd (read s))
    (hskip : ∀ i j s, i < gx → j < gy → ¬(i = I ∧ j = J) →
      read (k i j s) = read s) :
    read (launch2 k gx gy s0) = upd (read s0) := by
  unfold launch2
  refine foldl_read_write read upd _ I (List.range gx) s0 (List.nodup_range gx)
    (List.mem_range.mpr hI) ?_ ?_
  · intro s
    refine foldl_read_write read upd _ J (List.range gy) s (List.nodup_range gy)
      (List.mem_range.mpr hJ) (fun s => hset s) ?_
    intro j s hj hne
    exact hskip I j s hI (List.mem_range.mp hj) (fun h => hne h.2)
  · intro i s hi hne
    refine foldl_read_preserve read _ (List.range gy) s ?_
    intro j s hj
    exact hskip i j s (List.mem_range.mp hi) (List.mem_range.mp hj)
      (fun h => hne h.1)

/-- Every index is strictly below the end of its own block. -/
lemma lt_div_mul_add {r m : Nat} (hm : 0 < m) : r < r / m * m + m := by
  have h := Nat.div_add_mod r m
  have h2 := Nat.mod_lt r hm
  rw [Nat.mul_comm]
  omega

/-- The block of invocation (i, j) contains (r, c) exactly when (i, j) is the
quotient pair (r / m, c / n). -/
lemma inTile_iff {m n : Nat} (hm : 0 < m) (hn : 0 < n) (i j r c : Nat) :
    inTile i j m n r c ↔ i = r / m ∧ j = c / n := by
  constructor
  · rintro ⟨h1, h2, h3, h4⟩
    refine ⟨(Nat.div_eq_of_lt_le h1 ?_).symm, (Nat.div_eq_of_lt_le h3 ?_).symm⟩
    · rw [Nat.succ_mul]; exact h2
    · rw [Nat.succ_mul]; exact h4
  · rintro ⟨hi, hj⟩
    subst hi; subst hj
    exact ⟨Nat.div_mul_le_self r m, lt_div_mul_add hm,
      Nat.div_mul_le_self c n, lt_div_mul_add hn⟩

/-- A tile store writes the stored tile inside its block. -/
lemma tile_store_of_inTile {α : Type*} (B t : Arr α) {i j m n r c : Nat}
    (h : inTile i j m n r c) :
    tile_store B i j m n t r c = t (r - i * m) (c - j * n) := if_pos h

/-- A tile store leaves every element outside its block untouched. -/
lemma tile_store_of_not_inTile {α : Type*} (B t : Arr α) {i j m n r c : Nat}
    (h : ¬ inTile i j m n r c) :
    tile_store B i j m n t r c = B r c := if_neg h

/-- A tile load of the block containing (r, c) reads back the global element
at (r, c) when indexed at the local offset of (r, c). -/
lemma tile_load_block {α : Type*} (A : Arr α) {i j m n r c : Nat}
    (h : inTile i j m n r c) :
    tile_load A i j m n (r - i * m) (c - j * n) = A r c := by
  obtain ⟨h1, _, h3, _⟩ := h
  unfold tile_load
  rw [Nat.add_sub_cancel' h1, Nat.add_sub_cancel' h3]

/-- Master lemma for full-grid launches of store-shaped kernels: if the tile
written by invocation (i, j) holds, at the local offset of any global (r, c)
inside its block, the value upd r c applied to the current state at (r, c),
then the launch as a whole maps every covered element through upd. -/
lemma launch2_tile_store {α : Type*} (m n gx gy : Nat) (hm : 0 < m)
    (hn : 0 < n) (t : Nat → Nat → Arr α → Arr α) (upd : Nat → Nat → α → α)
    (ht : ∀ i j s r c, i < gx → j < gy → inTile i j m n r c →
      t i j s (r - i * m) (c - j * n) = upd r c (s r c))
    (s0 : Arr α) {r c : Nat} (hr : r < gx * m) (hc : c < gy * n) :
    launch2 (fun i j s => tile_store s i j m n (t i j s)) gx gy s0 r c =
      upd r c (s0 r c) := by
  have hI : r / m < gx := (Nat.div_lt_iff_lt_mul hm).mpr hr
  have hJ : c / n < gy := (Nat.div_lt_iff_lt_mul hn).mpr hc
  have hmem : inTile (r / m) (c / n) m n r c :=
    (inTile_iff hm hn _ _ r c).mpr ⟨rfl, rfl⟩
  refine launch2_apply _ gx gy s0 (fun s => s r c) (upd r c) (r / m) (c / n)
    hI hJ ?_ ?_
  · intro s
    show tile_store s (r / m) (c / n) m n (t (r / m) (c / n) s) r c =
      upd r c (s r c)
    rw [tile_store_of_inTile _ _ hmem]
    exact ht _ _ s r c hI hJ hmem
  · intro i j s hi hj hne
    show tile_store s i j m n (t i j s) r c = s r c
    refine tile_store_of_not_inTile _ _ (fun hmem2 => hne ?_)
    exact (inTile_iff hm hn i j r c).mp hmem2

/-- Forward semantics of the full-grid tile_copy launch: every covered element
of the output equals the corresponding input element. -/
lemma tile_copy_forward {α : Type*} (A : Arr α) (gx gy : Nat) (B0 : Arr α)
    {r c : Nat} (hr : r < gx * TILE_M) (hc : c < gy * TILE_N) :
    launch2 (tile_copy A) gx gy B0 r c = A r c := by
  refine launch2_tile_store TILE_M TILE_N gx gy (by decide) (by decide)
    (fun i j _ => tile_load A i j TILE_M TILE_N) (fun r c _ => A r c)
    ?_ B0 hr hc
  intro i j s r c _ _ hmem
  exact tile_load_block A hmem

/-- Forward semantics of the full-grid tile_unary_map launch. -/
lemma tile_unary_map_forward {α : Type*} (f : α → α) (A : Arr α)
    (gx gy : Nat) (out0 : Arr α) {r c : Nat}
    (hr : r < gx * TILE_M) (hc : c < gy * TILE_N) :
    launch2 (tile_unary_map f A) gx gy out0 r c = f (A r c) := by
  refine launch2_tile_store TILE_M TILE_N gx gy (by decide) (by decide)
    (fun i j _ => tile_map f (tile_load A i j TILE_M TILE_N))
    (fun r c _ => f (A r c)) ?_ out0 hr hc
  intro i j s r c _ _ hmem
  simp only [tile_map]
  rw [tile_load_block A hmem]

/-- Forward semantics of the full-grid tile_binary_map launch. -/
lemma tile_binary_map_forward {α : Type*} (f : α → α → α) (A B : Arr α)
    (gx gy : Nat) (out0 : Arr α) {r c : Nat}
    (hr : r < gx * TILE_M) (hc : c < gy * TILE_N) :
    launch2 (tile_binary_map f A B) gx gy out0 r c = f (A r c) (B r c) := by
  refine launch2_tile_store TILE_M TILE_N gx gy (by decide) (by decide)
    (fun i j _ => tile_map2 f (tile_load A i j TILE_M TILE_N)
      (tile_load B i j TILE_M TILE_N))
    (fun r c _ => f (A r c) (B r c)) ?_ out0 hr hc
  intro i j s r c _ _ hmem
  simp only [tile_map2]
  rw [tile_load_block A hmem, tile_load_block B hmem]

/-- Modelled from the spec (§4.3, the tape's reverse pass, absent from the
source slice): the adjoint launch of a recorded tile_copy accumulates the
output-gradient block unchanged into the input-gradient block. -/
def tile_copy_bwd {α : Type*} [Add α] (gB : Arr α) :
    Nat → Nat → Arr α → Arr α :=
  fun i j gA =>
    tile_store gA i j TILE_M TILE_N
      (tile_map2 (fun g d => g + d) (tile_load gA i j TILE_M TILE_N)
        (tile_load gB i j TILE_M TILE_N))

/-- Modelled from the spec (§4.3, the tape's reverse pass, absent from the
source slice): the adjoint launch of a recorded unary tile_map accumulates the
derivative of the mapped function at the input times the output gradient into
the input gradient; df is the derivative of the forward map. -/
def tile_unary_map_bwd {α : Type*} [Add α] [Mul α] (df : α → α)
    (input gB : Arr α) : Nat → Nat → Arr α → Arr α :=
  fun i j gA =>
    tile_store gA i j TILE_M TILE_N
      (tile_map2 (fun g d => g + d) (tile_load gA i j TILE_M TILE_N)
        (tile_map2 (fun x g => df x * g) (tile_load input i j TILE_M TILE_N)
          (tile_load gB i j TILE_M TILE_N)))

/-- Modelled from the spec (§4.3, the tape's reverse pass, absent from the
source slice): the adjoint launch of a recorded binary tile_map with respect
to one operand accumulates the corresponding partial derivative of the mapped
function, evaluated at the pair of inputs, times the output gradient into that
operand's gradient; d is the partial derivative of the forward map with
respect to the chosen operand. -/
def tile_binary_map_bwd {α : Type*} [Add α] [Mul α] (d : α → α → α)
    (input_a input_b gC : Arr α) : Nat → Nat → Arr α → Arr α :=
  fun i j g =>
    tile_store g i j TILE_M TILE_N
      (tile_map2 (fun gv dv => gv + dv) (tile_load g i j TILE_M TILE_N)
        (tile_map2 (fun p gc => p * gc)
          (tile_map2 d (tile_load input_a i j TILE_M TILE_N)
            (tile_load input_b i j TILE_M TILE_N))
          (tile_load gC i j TILE_M TILE_N)))

/-- Accumulation semantics of the tile_copy adjoint launch. -/
lemma tile_copy_bwd_spec {α : Type*} [Add α] (gB : Arr α) (gx gy : Nat)
    (gA0 : Arr α) {r c : Nat} (hr : r < gx * TILE_M) (hc : c < gy * TILE_N) :
    launch2 (tile_copy_bwd gB) gx gy gA0 r c = gA0 r c + gB r c := by
  refine launch2_tile_store TILE_M TILE_N gx gy (by decide) (by decide)
    (fun i j s => tile_map2 (fun g d => g + d) (tile_load s i j TILE_M TILE_N)
      (tile_load gB i j TILE_M TILE_N))
    (fun r c v => v + gB r c) ?_ gA0 hr hc
  intro i j s r c _ _ hmem
  simp only [tile_map2]
  rw [tile_load_block s hmem, tile_load_block gB hmem]

/-- Accumulation semantics of the unary tile_map adjoint launch. -/
lemma tile_unary_map_bwd_spec {α : Type*} [Add α] [Mul α] (df : α → α)
    (A gB : Arr α) (gx gy : Nat) (gA0 : Arr α) {r c : Nat}
    (hr : r < gx * TILE_M) (hc : c < gy * TILE_N) :
    launch2 (tile_unary_map_bwd df A gB) gx gy gA0 r c =
      gA0 r c + df (A r c) * gB r c := by
  refine launch2_tile_store TILE_M TILE_N gx gy (by decide) (by decide)
    (fun i j s => tile_map2 (fun g d => g + d) (tile_load s i j TILE_M TILE_N)
      (tile_map2 (fun x g => df x * g) (tile_load A i j TILE_M TILE_N)
        (tile_load gB i j TILE_M TILE_N)))
    (fun r c v => v + df (A r c) * gB r c) ?_ gA0 hr hc
  intro i j s r c _ _ hmem
  simp only [tile_map2]
  rw [tile_load_block s hmem, tile_load_block A hmem, tile_load_block gB hmem]

/-- Accumulation semantics of the binary tile_map adjoint launch. -/
lemma tile_binary_map_bwd_spec {α : Type*} [Add α] [Mul α] (d : α → α → α)
    (A B gC : Arr α) (gx gy : Nat) (g0 : Arr α) {r c : Nat}
    (hr : r < gx * TILE_M) (hc : c < gy * TILE_N) :
    launch2 (tile_binary_map_bwd d A B gC) gx gy g0 r c =
      g0 r c + d (A r c) (B r c) * gC r c := by
  refine launch2_tile_store TILE_M TILE_N gx gy (by decide) (by decide)
    (fun i j s => tile_map2 (fun gv dv => gv + dv)
      (tile_load s i j TILE_M TILE_N)
      (tile_map2 (fun p gc => p * gc)
        (tile_map2 d (tile_load A i j TILE_M TILE_N)
          (tile_load B i j TILE_M TILE_N))
        (tile_load gC i j TILE_M TILE_N)))
    (fun r c v => v + d (A r c) (B r c) * gC r c) ?_ g0 hr hc
  intro i j s r c _ _ hmem
  simp only [tile_map2]
  rw [tile_load_block s hmem, tile_load_block A hmem, tile_load_block B hmem,
    tile_load_block gC hmem]

/-- C2: for every unary tile map with f = sin over an input whose dimensions
are exact multiples of the tile size: the forward pass writes sin applied
elementwise to the input (so it is in particular within relative tolerance
1e-4 of it), and the reverse pass, seeded with an all-ones output gradient on
a zero-initialized input gradient, produces the input gradient
cos(input) · seed = cos(input) elementwise. -/
theorem claim_C2 (gx gy : Nat) (A out0 : Arr ℝ) (r c : Nat)
    (hr : r < gx * TILE_M) (hc : c < gy * TILE_N) :
    launch2 (tile_unary_map Real.sin A) gx gy out0 r c = Real.sin (A r c) ∧
    |launch2 (tile_unary_map Real.sin A) gx gy out0 r c - Real.sin (A r c)| ≤
      1e-8 + 1e-4 * |Real.sin (A r c)| ∧
    (∀ seed gA0 : Arr ℝ,
      launch2 (tile_unary_map_bwd (deriv Real.sin) A seed) gx gy gA0 r c =
        gA0 r c + Real.cos (A r c) * seed r c) ∧
    launch2 (tile_unary_map_bwd (deriv Real.sin) A (fun _ _ => 1)) gx gy
      (fun _ _ => 0) r c = Real.cos (A r c) := by
  have hfwd := tile_unary_map_forward Real.sin A gx gy out0 hr hc
  have hbwd : ∀ seed gA0 : Arr ℝ,
      launch2 (tile_unary_map_bwd (deriv Real.sin) A seed) gx gy gA0 r c =
        gA0 r c + Real.cos (A r c) * seed r c := by
    intro seed gA0
    rw [tile_unary_map_bwd_spec (deriv Real.sin) A seed gx gy gA0 hr hc,
      Real.deriv_sin]
  refine ⟨hfwd, ?_, hbwd, ?_⟩
  · rw [hfwd, sub_self, abs_zero]
    positivity
  · rw [hbwd (fun _ _ => 1) (fun _ _ => 0)]
    simp

theorem claim_C2_witness :
    (0 : Nat) < 7 * TILE_M ∧ (0 : Nat) < 5 * TILE_N ∧
    (launch2 (tile_unary_map Real.sin (fun _ _ => 0)) 7 5 (fun _ _ => 0) 0 0 =
        Real.sin 0 ∧
      |launch2 (tile_unary_map Real.sin (fun _ _ => 0)) 7 5 (fun _ _ => 0) 0 0 -
          Real.sin 0| ≤ 1e-8 + 1e-4 * |Real.sin 0| ∧
      (∀ seed gA0 : Arr ℝ,
        launch2 (tile_unary_map_bwd (deriv Real.sin) (fun _ _ => 0) seed) 7 5
          gA0 0 0 = gA0 0 0 + Real.cos 0 * seed 0 0) ∧
      launch2 (tile_unary_map_bwd (deriv Real.sin) (fun _ _ => 0)
        (fun _ _ => 1)) 7 5 (fun _ _ => 0) 0 0 = Real.cos 0) :=
  ⟨by decide, by decide,
    claim_C2 7 5 (fun _ _ => 0) (fun _ _ => 0) 0 0 (by decide) (by decide)⟩

/-- C3: for every binary tile map with f(x, y) = sin(x) + y over same-shape
inputs whose dimensions are exact multiples of the tile size: the forward
output is sin(a) + b elementwise (so within relative tolerance 1e-4 of it),
and the reverse pass seeded with ones on zero-initialized gradients yields an
a-gradient of cos(a) elementwise (the partial derivative of f in x times the
seed) and a b-gradient equal to the seed, all ones. -/
theorem claim_C3 (gx gy : Nat) (a b out0 : Arr ℝ) (r c : Nat)
    (hr : r < gx * TILE_M) (hc : c < gy * TILE_N) :
    launch2 (tile_binary_map (fun x y => Real.sin x + y) a b) gx gy out0 r c =
      Real.sin (a r c) + b r c ∧
    |launch2 (tile_binary_map (fun x y => Real.sin x + y) a b) gx gy out0 r c -
        (Real.sin (a r c) + b r c)| ≤
      1e-8 + 1e-4 * |Real.sin (a r c) + b r c| ∧
    (∀ seed g0 : Arr ℝ,
      launch2 (tile_binary_map_bwd
          (fun x y => deriv (fun t => Real.sin t + y) x) a b seed) gx gy
        g0 r c = g0 r c + Real.cos (a r c) * seed r c) ∧
    (∀ seed g0 : Arr ℝ,
      launch2 (tile_binary_map_bwd
          (fun x y => deriv (fun t => Real.sin x + t) y) a b seed) gx gy
        g0 r c = g0 r c + 1 * seed r c) ∧
    launch2 (tile_binary_map_bwd
        (fun x y => deriv (fun t => Real.sin t + y) x) a b (fun _ _ => 1))
      gx gy (fun _ _ => 0) r c = Real.cos (a r c) ∧
    launch2 (tile_binary_map_bwd
        (fun x y => deriv (fun t => Real.sin x + t) y) a b (fun _ _ => 1))
      gx gy (fun _ _ => 0) r c = 1 := by
  have hda : ∀ x y : ℝ, deriv (fun t => Real.sin t + y) x = Real.cos x :=
    fun x y => ((Real.hasDerivAt_sin x).add_const y).deriv
  have hdb : ∀ x y : ℝ, deriv (fun t => Real.sin x + t) y = 1 :=
    fun x y => by simpa using ((hasDerivAt_id y).const_add (Real.sin x)).deriv
  have hfwd := tile_binary_map_forward (fun x y => Real.sin x + y) a b gx gy
    out0 hr hc
  have hbwda : ∀ seed g0 : Arr ℝ,
      launch2 (tile_binary_map_bwd
          (fun x y => deriv (fun t => Real.sin t + y) x) a b seed) gx gy
        g0 r c = g0 r c + Real.cos (a r c) * seed r c := by
    intro seed g0
    rw [tile_binary_map_bwd_spec _ a b seed gx gy g0 hr hc, hda]
  have hbwdb : ∀ seed g0 : Arr ℝ,
      launch2 (tile_binary_map_bwd
          (fun x y => deriv (fun t => Real.sin x + t) y) a b seed) gx gy
        g0 r c = g0 r c + 1 * seed r c := by
    intro seed g0
    rw [tile_binary_map_bwd_spec _ a b seed gx gy g0 hr hc, hdb]
  refine ⟨hfwd, ?_, hbwda, hbwdb, ?_, ?_⟩
  · rw [hfwd, sub_self, abs_zero]
    positivity
  · rw [hbwda (fun _ _ => 1) (fun _ _ => 0)]
    simp
  · rw [hbwdb (fun _ _ => 1) (fun _ _ => 0)]
    simp

theorem claim_C3_witness :
    (0 : Nat) < 7 * TILE_M ∧ (0 : Nat) < 5 * TILE_N ∧
    (launch2 (tile_binary_map (fun x y => Real.sin x + y) (fun _ _ => 0)
        (fun _ _ => 0)) 7 5 (fun _ _ => 0) 0 0 = Real.sin 0 + 0 ∧
      |launch2 (tile_binary_map (fun x y => Real.sin x + y) (fun _ _ => 0)
          (fun _ _ => 0)) 7 5 (fun _ _ => 0) 0 0 - (Real.sin 0 + 0)| ≤
        1e-8 + 1e-4 * |Real.sin 0 + 0| ∧
      (∀ seed g0 : Arr ℝ,
        launch2 (tile_binary_map_bwd
            (fun x y => deriv (fun t => Real.sin t + y) x) (fun _ _ => 0)
            (fun _ _ => 0) seed) 7 5 g0 0 0 =
          g0 0 0 + Real.cos 0 * seed 0 0) ∧
      (∀ seed g0 : Arr ℝ,
        launch2 (tile_binary_map_bwd
            (fun x y => deriv (fun t => Real.sin x + t) y) (fun _ _ => 0)
            (fun _ _ => 0) seed) 7 5 g0 0 0 = g0 0 0 + 1 * seed 0 0) ∧
      launch2 (tile_binary_map_bwd
          (fun x y => deriv (fun t => Real.sin t + y) x) (fun _ _ => 0)
          (fun _ _ => 0) (fun _ _ => 1)) 7 5 (fun _ _ => 0) 0 0 = Real.cos 0 ∧
      launch2 (tile_binary_map_bwd
          (fun x y => deriv (fun t => Real.sin x + t) y) (fun _ _ => 0)
          (fun _ _ => 0) (fun _ _ => 1)) 7 5 (fun _ _ => 0) 0 0 = 1) :=
  ⟨by decide, by decide,
    claim_C3 7 5 (fun _ _ => 0) (fun _ _ => 0) (fun _ _ => 0) 0 0
      (by decide) (by decide)⟩

/-- C4: for every tile copy operation over a full grid, the stored tile equals
the loaded tile element for element (the launched copy leaves the output equal
to the input at every covered element, for any initial output contents), and
the reverse pass of the copy is the identity on gradients: the seeded output
gradient is accumulated unchanged into the input gradient buffer, so with a
zero-initialized input gradient the input gradient equals the seed. -/
theorem claim_C4 (gx gy : Nat) (A B0 : Arr ℝ) (r c : Nat)
    (hr : r < gx * TILE_M) (hc : c < gy * TILE_N) :
    launch2 (tile_copy A) gx gy B0 r c = A r c ∧
    (∀ gB gA0 : Arr ℝ,
      launch2 (tile_copy_bwd gB) gx gy gA0 r c = gA0 r c + gB r c) ∧
    (∀ gB : Arr ℝ,
      launch2 (tile_copy_bwd gB) gx gy (fun _ _ => 0) r c = gB r c) := by
  refine ⟨tile_copy_forward A gx gy B0 hr hc,
    fun gB gA0 => tile_copy_bwd_spec gB gx gy gA0 hr hc,
    fun gB => ?_⟩
  rw [tile_copy_bwd_spec gB gx gy (fun _ _ => 0) hr hc]
  simp

theorem claim_C4_witness :
    (0 : Nat) < 7 * TILE_M ∧ (0 : Nat) < 5 * TILE_N ∧
    (launch2 (tile_copy (fun _ _ => (1 : ℝ))) 7 5 (fun _ _ => 0) 0 0 = 1 ∧
      (∀ gB gA0 : Arr ℝ,
        launch2 (tile_copy_bwd gB) 7 5 gA0 0 0 = gA0 0 0 + gB 0 0) ∧
      (∀ gB : Arr ℝ,
        launch2 (tile_copy_bwd gB) 7 5 (fun _ _ => 0) 0 0 = gB 0 0)) :=
  ⟨by decide, by decide,
    claim_C4 7 5 (fun _ _ => 1) (fun _ _ => 0) 0 0 (by decide) (by decide)⟩

/-- C6: over a full grid of dims gx×gy on an array whose extents are exact
multiples of the tile extents, the blocks written by distinct invocation
indices are disjoint and together cover the array: every covered element lies
in the written block of exactly one grid invocation, and a tile store never
changes an element outside its own block. -/
theorem claim_C6 (m n gx gy r c : Nat) (hm : 0 < m) (hn : 0 < n)
    (hr : r < gx * m) (hc : c < gy * n) :
    (∃! p : Nat × Nat, p.1 < gx ∧ p.2 < gy ∧ inTile p.1 p.2 m n r c) ∧
    ∀ (i j : Nat) (B t : Arr ℝ), ¬ inTile i j m n r c →
      tile_store B i j m n t r c = B r c := by
  constructor
  · refine ⟨(r / m, c / n),
      ⟨(Nat.div_lt_iff_lt_mul hm).mpr hr, (Nat.div_lt_iff_lt_mul hn).mpr hc,
        (inTile_iff hm hn _ _ r c).mpr ⟨rfl, rfl⟩⟩, ?_⟩
    rintro ⟨i, j⟩ ⟨-, -, hmem⟩
    obtain ⟨hi, hj⟩ := (inTile_iff hm hn i j r c).mp hmem
    subst hi; subst hj
    rfl
  · intro i j B t h
    exact tile_store_of_not_inTile B t h

theorem claim_C6_witness :
    ((0 : Nat) < 8 ∧ (0 : Nat) < 4 ∧ (0 : Nat) < 7 * 8 ∧ (0 : Nat) < 5 * 4) ∧
    ((∃! p : Nat × Nat, p.1 < 7 ∧ p.2 < 5 ∧ inTile p.1 p.2 8 4 0 0) ∧
      ∀ (i j : Nat) (B t : Arr ℝ), ¬ inTile i j 8 4 0 0 →
        tile_store B i j 8 4 t 0 0 = B 0 0) :=
  ⟨⟨by decide, by decide, by decide, by decide⟩,
    claim_C6 8 4 7 5 0 0 (by decide) (by decide) (by decide) (by decide)⟩

/-- Tile extent of the Cholesky example
(src/warp/examples/tile/example_tile_cholesky.py). -/
def TILE : Nat := 32

/-- C9: in every exercised launch all tile accesses are fully in bounds: in the
tests, arrays have shape (TILE_M·7, TILE_N·5) with grid dims [7, 5] and every
invocation's 8×4 block lies inside those extents; in the Cholesky example, the
grid is [1, 1] and the 32×32 block lies inside the 32×32 array while the 32×1
block lies inside the 32×1 array, so out-of-bounds behaviour is never
reached. -/
theorem claim_C9 :
    (∀ i j r c : Nat, i < 7 → j < 5 → inTile i j TILE_M TILE_N r c →
      r < TILE_M * 7 ∧ c < TILE_N * 5) ∧
    (∀ r c : Nat, inTile 0 0 TILE TILE r c → r < TILE ∧ c < TILE) ∧
    (∀ r c : Nat, inTile 0 0 TILE 1 r c → r < TILE ∧ c < 1) := by
  refine ⟨fun i j r c hi hj hmem => ?_, fun r c hmem => ?_, fun r c hmem => ?_⟩
  all_goals obtain ⟨h1, h2, h3, h4⟩ := hmem
  all_goals simp only [TILE_M, TILE_N, TILE] at *
  all_goals omega

theorem claim_C9_witness :
    (0 : Nat) < 7 ∧ (0 : Nat) < 5 ∧ inTile 0 0 TILE_M TILE_N 0 0 ∧
    ((0 : Nat) < TILE_M * 7 ∧ (0 : Nat) < TILE_N * 5) :=
  ⟨by decide, by decide, by decide,
    claim_C9.1 0 0 0 0 (by decide) (by decide) (by decide)⟩

/-- C10: the forward result of the full-grid tile_copy launch does not depend
on the initial contents of the output array: for any two initial contents the
launch leaves every covered element equal to the input, hence the two runs
agree element for element. -/
theorem claim_C10 (gx gy : Nat) (A B1 B2 : Arr ℝ) (r c : Nat)
    (hr : r < gx * TILE_M) (hc : c < gy * TILE_N) :
    launch2 (tile_copy A) gx gy B1 r c = launch2 (tile_copy A) gx gy B2 r c ∧
    launch2 (tile_copy A) gx gy B1 r c = A r c := by
  rw [tile_copy_forward A gx gy B1 hr hc, tile_copy_forward A gx gy B2 hr hc]
  exact ⟨rfl, rfl⟩

theorem claim_C10_witness :
    (0 : Nat) < 7 * TILE_M ∧ (0 : Nat) < 5 * TILE_N ∧
    (launch2 (tile_copy (fun _ _ => (2 : ℝ))) 7 5 (fun _ _ => 0) 0 0 =
        launch2 (tile_copy (fun _ _ => (2 : ℝ))) 7 5 (fun _ _ => 3) 0 0 ∧
      launch2 (tile_copy (fun _ _ => (2 : ℝ))) 7 5 (fun _ _ => 0) 0 0 = 2) :=
  ⟨by decide, by decide,
    claim_C10 7 5 (fun _ _ => 2) (fun _ _ => 0) (fun _ _ => 3) 0 0
      (by decide) (by decide)⟩

/-- Vector of three floats (wp.vec3), as used by the launch-API benchmark. -/
structure Vec3 where
  x : ℝ
  y : ℝ
  z : ℝ

/-- The struct parameter Sz from src/benchmarks/benchmarks/launch_api.py:
three float arrays, three float scalars and three vec3 values packed into one
kernel parameter. -/
structure Sz where
  a : Nat → ℝ
  b : Nat → ℝ
  c : Nat → ℝ
  x : ℝ
  y : ℝ
  z : ℝ
  u : Vec3
  v : Vec3
  w : Vec3

/-- The empty struct parameter S0 from src/benchmarks/benchmarks/launch_api.py. -/
structure S0

/-- Mutable state visible to the benchmark kernels: the contents of the three
float array parameters that a launch could write. -/
structure ArrState where
  a : Nat → ℝ
  b : Nat → ℝ
  c : Nat → ℝ

/-- The kernel ksz from src/benchmarks/benchmarks/launch_api.py: its body only
reads the thread index and performs no writes. -/
def ksz (s : Sz) : Nat → ArrState → ArrState := fun _ st => st

/-- The kernel kz from src/benchmarks/benchmarks/launch_api.py: the same
parameters as ksz passed individually; its body only reads the thread index
and performs no writes. -/
def kz (a b c : Nat → ℝ) (x y z : ℝ) (u v w : Vec3) :
    Nat → ArrState → ArrState := fun _ st => st

/-- The kernel ks0 from src/benchmarks/benchmarks/launch_api.py: an
empty-struct parameter and a body performing no writes. -/
def ks0 (s : S0) : Nat → ArrState → ArrState := fun _ st => st

/-- The kernel k0 from src/benchmarks/benchmarks/launch_api.py: no parameters
and a body performing no writes. -/
def k0 : Nat → ArrState → ArrState := fun _ st => st

/-- Modelled from the spec (§6, wp.launch over a 1D index range, absent from
the source slice): the kernel body runs once per thread index. -/
def launch1 (body : Nat → ArrState → ArrState) (dim : Nat)
    (st : ArrState) : ArrState :=
  (List.range dim).foldl (fun st t => body t st) st

/-- The struct packing performed in KernelLaunchParameters.setup: each field
of Sz is set from the corresponding individual parameter. -/
def mkSz (a b c : Nat → ℝ) (x y z : ℝ) (u v w : Vec3) : Sz :=
  ⟨a, b, c, x, y, z, u, v, w⟩

/-- Folding a step that never changes the state returns the initial state. -/
lemma foldl_id {S : Type*} : ∀ (l : List Nat) (s : S),
    l.foldl (fun s _ => s) s = s := by
  intro l
  induction l with
  | nil => intro s; rfl
  | cons a t ih => intro s; rw [List.foldl_cons]; exact ih s

/-- C5: launching the struct-parameter kernels (ksz with Sz packed from the
individual parameters; ks0 with the empty struct S0) and launching the
semantically identical flattened-parameter kernels (kz; k0) with the same
parameters produce bit-identical contents in every array parameter; passing a
struct parameter is semantically equivalent to passing its fields
individually. -/
theorem claim_C5 (a b c : Nat → ℝ) (x y z : ℝ) (u v w : Vec3) (s0 : S0)
    (st : ArrState) (dim : Nat) :
    launch1 (ksz (mkSz a b c x y z u v w)) dim st =
      launch1 (kz a b c x y z u v w) dim st ∧
    launch1 (ks0 s0) dim st = launch1 k0 dim st ∧
    ksz (mkSz a b c x y z u v w) = kz a b c x y z u v w ∧
    launch1 (ksz (mkSz a b c x y z u v w)) 1 st = st := by
  refine ⟨rfl, rfl, rfl, ?_⟩
  exact foldl_id (List.range 1) st

theorem claim_C5_witness :
    launch1 (ksz (mkSz (fun _ => 0) (fun _ => 0) (fun _ => 0) 17 42 99
        ⟨1, 2, 3⟩ ⟨10, 20, 30⟩ ⟨100, 200, 300⟩)) 1
        ⟨fun _ => 0, fun _ => 0, fun _ => 0⟩ =
      launch1 (kz (fun _ => 0) (fun _ => 0) (fun _ => 0) 17 42 99
        ⟨1, 2, 3⟩ ⟨10, 20, 30⟩ ⟨100, 200, 300⟩) 1
        ⟨fun _ => 0, fun _ => 0, fun _ => 0⟩ :=
  (claim_C5 (fun _ => 0) (fun _ => 0) (fun _ => 0) 17 42 99
    ⟨1, 2, 3⟩ ⟨10, 20, 30⟩ ⟨100, 200, 300⟩ ⟨⟩
    ⟨fun _ => 0, fun _ => 0, fun _ => 0⟩ 1).1

/-- Modelled from the spec (§4.3): the state machine of a differentiable
execution session is Idle → Recording → Recorded → Consumed. -/
inductive TapeState
  | idle
  | recording
  | recorded
  | consumed
  deriving DecidableEq

/-- Modelled from the spec (§4.3, wp.Tape, absent from the source slice):
opening a scoped session begins intercepting launches. -/
def tape_open : TapeState → Except String TapeState
  | TapeState.idle => Except.ok TapeState.recording
  | _ => Except.error "tape is not idle"

/-- Modelled from the spec (§4.3, wp.Tape, absent from the source slice):
closing the scope finalizes the recorded launch list. -/
def tape_close : TapeState → Except String TapeState
  | TapeState.recording => Except.ok TapeState.recorded
  | _ => Except.error "tape is not recording"

/-- Modelled from the spec (§4.3, wp.Tape.backward, absent from the source
slice): invoking the reverse pass consumes a recorded session; a session may
be consumed at most once, and a second reverse pass is a state error rather
than a silent re-run. -/
def tape_backward : TapeState → Except String TapeState
  | TapeState.recorded => Except.ok TapeState.consumed
  | _ => Except.error "tape already consumed"

/-- C7: a differentiable execution session may be consumed at most once: the
first reverse pass on a recorded tape succeeds and moves it to the consumed
state, and invoking the reverse pass again from whatever state the first
invocation produced is a state error, not a silent re-run. -/
theorem claim_C7 :
    tape_backward TapeState.recorded = Except.ok TapeState.consumed ∧
    ∀ s : TapeState, tape_backward TapeState.recorded = Except.ok s →
      tape_backward s = Except.error "tape already consumed" := by
  refine ⟨rfl, ?_⟩
  intro s hs
  have hs2 : Except.ok (ε := String) TapeState.consumed = Except.ok s := hs
  injection hs2 with h
  rw [← h]
  rfl

theorem claim_C7_witness :
    tape_backward TapeState.recorded = Except.ok TapeState.consumed ∧
    tape_backward TapeState.consumed = Except.error "tape already consumed" :=
  ⟨claim_C7.1, claim_C7.2 TapeState.consumed rfl⟩

open Matrix

/-- Over the reals, conjugate transpose is plain transpose. -/
lemma conjTranspose_eq_transpose_real {m n : Type*} (M : Matrix m n ℝ) :
    Mᴴ = Mᵀ := by
  ext i j
  simp [Matrix.conjTranspose_apply]

/-- The diagonal entries produced by the LDL decomposition of a positive
definite real matrix are positive. -/
lemma LDL_diagEntries_pos {n : Type*} [Fintype n] [LinearOrder n]
    [WellFoundedLT n] [LocallyFiniteOrderBot n] {S : Matrix n n ℝ}
    (hS : S.PosDef) (i : n) : 0 < LDL.diagEntries hS i := by
  haveI := LDL.invertibleLowerInv hS
  have hrow : LDL.lowerInv hS i ≠ 0 := by
    intro h
    have h1 := congrArg (fun M => M i i) (mul_invOf_self (LDL.lowerInv hS))
    simp only [Matrix.mul_apply, Matrix.one_apply_eq] at h1
    rw [Finset.sum_eq_zero (fun k _ => by rw [congrFun h k]; simp)] at h1
    exact zero_ne_one h1
  have hpos := hS.2 (LDL.lowerInv hS i) hrow
  have heq : LDL.diagEntries hS i =
      Matrix.dotProduct (star (LDL.lowerInv hS i)) (S *ᵥ LDL.lowerInv hS i) := by
    unfold LDL.diagEntries
    rw [EuclideanSpace.inner_piLp_equiv_symm]
    simp
  rw [heq]
  exact hpos

/-- The lower-inverse factor of the LDL decomposition is lower triangular. -/
lemma LDL_lowerInv_blockTriangular {n : Type*} [Fintype n] [LinearOrder n]
    [WellFoundedLT n] [LocallyFiniteOrderBot n] {S : Matrix n n ℝ}
    (hS : S.PosDef) : (LDL.lowerInv hS).BlockTriangular OrderDual.toDual := by
  intro i j h
  exact LDL.lowerInv_triangular hS (OrderDual.toDual_lt_toDual.mp h)

/-- The lower factor of the LDL decomposition is lower triangular, being the
inverse of a lower-triangular invertible matrix. -/
lemma LDL_lower_blockTriangular {n : Type*} [Fintype n] [LinearOrder n]
    [WellFoundedLT n] [LocallyFiniteOrderBot n] {S : Matrix n n ℝ}
    (hS : S.PosDef) : (LDL.lower hS).BlockTriangular OrderDual.toDual := by
  haveI := LDL.invertibleLowerInv hS
  unfold LDL.lower
  exact Matrix.blockTriangular_inv_of_blockTriangular
    (LDL_lowerInv_blockTriangular hS)

/-- The diagonal entries of the LDL lower factor are nonzero: the diagonal of
the product of two triangular matrices multiplying to the identity collapses
to the product of the diagonal entries. -/
lemma LDL_lower_diag_ne_zero {n : Type*} [Fintype n] [LinearOrder n]
    [WellFoundedLT n] [LocallyFiniteOrderBot n] {S : Matrix n n ℝ}
    (hS : S.PosDef) (i : n) : LDL.lower hS i i ≠ 0 := by
  haveI := LDL.invertibleLowerInv hS
  have h1 : LDL.lowerInv hS * LDL.lower hS = 1 := by
    unfold LDL.lower
    exact Matrix.mul_inv_of_invertible (LDL.lowerInv hS)
  have h2 : (LDL.lowerInv hS * LDL.lower hS) i i = (1 : Matrix n n ℝ) i i :=
    congrArg (fun M => M i i) h1
  rw [Matrix.mul_apply, Matrix.one_apply_eq] at h2
  rw [Finset.sum_eq_single i ?side ?notmem] at h2
  · exact right_ne_zero_of_mul_eq_one h2
  case side =>
    intro k _ hk
    rcases lt_or_gt_of_ne hk with h | h
    · rw [LDL_lower_blockTriangular hS (OrderDual.toDual_lt_toDual.mpr h),
        mul_zero]
    · rw [LDL.lowerInv_triangular hS h, zero_mul]
  case notmem =>
    intro hmem
    exact absurd (Finset.mem_univ i) hmem

/-- Modelled from the spec (§4.5, wp.tile_cholesky, absent from the source
slice): the blocked Cholesky factorization of a symmetric positive-definite
tile, realized through the LDL decomposition as L·√D with the column signs
normalized so that the diagonal of the factor is positive — the standard
Cholesky convention, also the one a trusted dense reference such as numpy's
cholesky uses. -/
noncomputable def tile_cholesky {n : Type*} [Fintype n] [LinearOrder n]
    [WellFoundedLT n] [LocallyFiniteOrderBot n] {S : Matrix n n ℝ}
    (hS : S.PosDef) : Matrix n n ℝ :=
  LDL.lower hS * Matrix.diagonal (fun i =>
    if 0 ≤ LDL.lower hS i i then Real.sqrt (LDL.diagEntries hS i)
    else - Real.sqrt (LDL.diagEntries hS i))

/-- The Cholesky factor reconstructs the input: L·Lᵗ = S. -/
lemma tile_cholesky_spec {n : Type*} [Fintype n] [LinearOrder n]
    [WellFoundedLT n] [LocallyFiniteOrderBot n] {S : Matrix n n ℝ}
    (hS : S.PosDef) : tile_cholesky hS * (tile_cholesky hS)ᵀ = S := by
  unfold tile_cholesky
  have hdiag : Matrix.diagonal (fun i =>
      if 0 ≤ LDL.lower hS i i then Real.sqrt (LDL.diagEntries hS i)
      else - Real.sqrt (LDL.diagEntries hS i)) *
      (Matrix.diagonal (fun i =>
        if 0 ≤ LDL.lower hS i i then Real.sqrt (LDL.diagEntries hS i)
        else - Real.sqrt (LDL.diagEntries hS i)))ᵀ = LDL.diag hS := by
    have hsq : (fun i =>
        (if 0 ≤ LDL.lower hS i i then Real.sqrt (LDL.diagEntries hS i)
          else - Real.sqrt (LDL.diagEntries hS i)) *
        (if 0 ≤ LDL.lower hS i i then Real.sqrt (LDL.diagEntries hS i)
          else - Real.sqrt (LDL.diagEntries hS i))) = LDL.diagEntries hS := by
      funext i
      by_cases h : 0 ≤ LDL.lower hS i i
      · rw [if_pos h]
        exact Real.mul_self_sqrt (le_of_lt (LDL_diagEntries_pos hS i))
      · rw [if_neg h, neg_mul_neg]
        exact Real.mul_self_sqrt (le_of_lt (LDL_diagEntries_pos hS i))
    rw [Matrix.diagonal_transpose, Matrix.diagonal_mul_diagonal, hsq]
    rfl
  rw [Matrix.transpose_mul, ← Matrix.mul_assoc, Matrix.mul_assoc (LDL.lower hS),
    hdiag, ← conjTranspose_eq_transpose_real (LDL.lower hS)]
  exact LDL.lower_conj_diag hS

/-- The Cholesky factor is lower triangular. -/
lemma tile_cholesky_blockTriangular {n : Type*} [Fintype n] [LinearOrder n]
    [WellFoundedLT n] [LocallyFiniteOrderBot n] {S : Matrix n n ℝ}
    (hS : S.PosDef) : (tile_cholesky hS).BlockTriangular OrderDual.toDual := by
  unfold tile_cholesky
  exact (LDL_lower_blockTriangular hS).mul (Matrix.blockTriangular_diagonal _)

/-- The Cholesky factor has a positive diagonal. -/
lemma tile_cholesky_diag_pos {n : Type*} [Fintype n] [LinearOrder n]
    [WellFoundedLT n] [LocallyFiniteOrderBot n] {S : Matrix n n ℝ}
    (hS : S.PosDef) (i : n) : 0 < tile_cholesky hS i i := by
  unfold tile_cholesky
  rw [Matrix.mul_diagonal]
  by_cases h : 0 ≤ LDL.lower hS i i
  · rw [if_pos h]
    have hlt : 0 < LDL.lower hS i i :=
      lt_of_le_of_ne h (Ne.symm (LDL_lower_diag_ne_zero hS i))
    exact mul_pos hlt (Real.sqrt_pos.mpr (LDL_diagEntries_pos hS i))
  · rw [if_neg h]
    push_neg at h
    exact mul_pos_of_neg_of_neg h
      (neg_lt_zero.mpr (Real.sqrt_pos.mpr (LDL_diagEntries_pos hS i)))

/-- Uniqueness of the Cholesky factor: two lower-triangular matrices with
positive diagonals whose self-products agree are equal.  The quotient of the
two factors is simultaneously lower and upper triangular, hence diagonal; its
self-product is the identity, so its diagonal entries square to one, and the
positive diagonals force them all to be one. -/
lemma lower_posDiag_factor_unique {n : Type*} [Fintype n] [LinearOrder n]
    [DecidableEq n] {L1 L2 : Matrix n n ℝ}
    (t1 : L1.BlockTriangular OrderDual.toDual)
    (t2 : L2.BlockTriangular OrderDual.toDual)
    (d1 : ∀ i, 0 < L1 i i) (d2 : ∀ i, 0 < L2 i i)
    (hfac : L1 * L1ᵀ = L2 * L2ᵀ) : L1 = L2 := by
  have hu1 : IsUnit L1.det := by
    rw [Matrix.det_of_lowerTriangular L1 t1]
    exact isUnit_iff_ne_zero.mpr (ne_of_gt (Finset.prod_pos fun i _ => d1 i))
  have hu2 : IsUnit L2.det := by
    rw [Matrix.det_of_lowerTriangular L2 t2]
    exact isUnit_iff_ne_zero.mpr (ne_of_gt (Finset.prod_pos fun i _ => d2 i))
  haveI := L1.invertibleOfIsUnitDet hu1
  haveI := L2.invertibleOfIsUnitDet hu2
  haveI : Invertible L1ᵀ := Matrix.invertibleTranspose L1
  have t1T : L1ᵀ.BlockTriangular (id : n → n) := by
    intro i j h
    rw [Matrix.transpose_apply]
    exact t1 (OrderDual.toDual_lt_toDual.mpr h)
  have t2T : L2ᵀ.BlockTriangular (id : n → n) := by
    intro i j h
    rw [Matrix.transpose_apply]
    exact t2 (OrderDual.toDual_lt_toDual.mpr h)
  have tinvT : ((L1ᵀ)⁻¹).BlockTriangular (id : n → n) :=
    Matrix.blockTriangular_inv_of_blockTriangular t1T
  have t2inv : (L2⁻¹).BlockTriangular OrderDual.toDual :=
    Matrix.blockTriangular_inv_of_blockTriangular t2
  have hL1 : L1 = L2 * (L2⁻¹ * L1) := by
    rw [Matrix.mul_inv_cancel_left_of_invertible]
  have hDlow : (L2⁻¹ * L1).BlockTriangular OrderDual.toDual := t2inv.mul t1
  have hDup : (L2⁻¹ * L1).BlockTriangular (id : n → n) := by
    have h1 : L2ᵀ = L2⁻¹ * (L1 * L1ᵀ) := by
      rw [hfac, Matrix.inv_mul_cancel_left_of_invertible]
    have h2 : L2⁻¹ * L1 = L2ᵀ * (L1ᵀ)⁻¹ := by
      rw [h1, ← Matrix.mul_assoc, Matrix.mul_inv_cancel_right_of_invertible]
    rw [h2]
    exact t2T.mul tinvT
  have hDoff : ∀ i j, i ≠ j → (L2⁻¹ * L1) i j = 0 := by
    intro i j hij
    rcases lt_or_gt_of_ne hij with h | h
    · exact hDlow (OrderDual.toDual_lt_toDual.mpr h)
    · exact hDup h
  have hDDT : (L2⁻¹ * L1) * (L2⁻¹ * L1)ᵀ = 1 := by
    have hexp : (L2 * (L2⁻¹ * L1)) * (L2 * (L2⁻¹ * L1))ᵀ =
        L2 * (((L2⁻¹ * L1) * (L2⁻¹ * L1)ᵀ) * L2ᵀ) := by
      rw [Matrix.transpose_mul]
      simp only [Matrix.mul_assoc]
    have e1 : L2 * (((L2⁻¹ * L1) * (L2⁻¹ * L1)ᵀ) * L2ᵀ) = L2 * L2ᵀ := by
      rw [← hexp, ← hL1]
      exact hfac
    have e3 : ((L2⁻¹ * L1) * (L2⁻¹ * L1)ᵀ) * L2ᵀ = L2ᵀ := by
      have h := congrArg (fun M => L2⁻¹ * M) e1
      simpa only [Matrix.inv_mul_cancel_left_of_invertible] using h
    have h := congrArg (fun M => M * (L2ᵀ)⁻¹) e3
    simpa only [Matrix.mul_inv_cancel_right_of_invertible,
      Matrix.mul_inv_of_invertible] using h
  have hdiag1 : ∀ i, (L2⁻¹ * L1) i i = 1 := by
    intro i
    have hsq : (L2⁻¹ * L1) i i * (L2⁻¹ * L1) i i = 1 := by
      have h : ((L2⁻¹ * L1) * (L2⁻¹ * L1)ᵀ) i i = (1 : Matrix n n ℝ) i i :=
        congrArg (fun M => M i i) hDDT
      rw [Matrix.mul_apply, Matrix.one_apply_eq] at h
      simp only [Matrix.transpose_apply] at h
      rwa [Finset.sum_eq_single i
        (fun k _ hk => by rw [hDoff i k (Ne.symm hk), zero_mul])
        (fun hmem => absurd (Finset.mem_univ i) hmem)] at h
    have hL1ii : L1 i i = L2 i i * (L2⁻¹ * L1) i i := by
      have h : L1 i i = (L2 * (L2⁻¹ * L1)) i i := congrArg (fun M => M i i) hL1
      rw [Matrix.mul_apply] at h
      rwa [Finset.sum_eq_single i
        (fun k _ hk => by rw [hDoff k i hk, mul_zero])
        (fun hmem => absurd (Finset.mem_univ i) hmem)] at h
    have hpos : 0 < (L2⁻¹ * L1) i i := by nlinarith [d1 i, d2 i]
    rcases mul_self_eq_one_iff.mp hsq with h1 | hneg
    · exact h1
    · exfalso
      rw [hneg] at hpos
      norm_num at hpos
  have hD1 : L2⁻¹ * L1 = 1 := by
    ext i j
    by_cases hij : i = j
    · subst hij
      rw [Matrix.one_apply_eq]
      exact hdiag1 i
    · rw [Matrix.one_apply_ne hij]
      exact hDoff i j hij
  calc L1 = L2 * (L2⁻¹ * L1) := hL1
    _ = L2 * 1 := by rw [hD1]
    _ = L2 := Matrix.mul_one L2

/-- Modelled from the spec (§4.5, wp.tile_cholesky_solve, absent from the
source slice): given the Cholesky factor L of A, solves the linear system
L·Lᵗ·y = x, that is, produces y = (L·Lᵗ)⁻¹·x. -/
noncomputable def tile_cholesky_solve {n : Type*} [Fintype n] [DecidableEq n]
    (L : Matrix n n ℝ) (x : n → ℝ) : n → ℝ :=
  (L * Lᵀ)⁻¹ *ᵥ x

/-- Solving through the Cholesky factor of S yields a solution of S·y = x. -/
lemma tile_cholesky_solve_spec {n : Type*} [Fintype n] [LinearOrder n]
    [WellFoundedLT n] [LocallyFiniteOrderBot n] [DecidableEq n]
    {S : Matrix n n ℝ} (hS : S.PosDef) (x : n → ℝ) :
    S *ᵥ tile_cholesky_solve (tile_cholesky hS) x = x := by
  unfold tile_cholesky_solve
  rw [tile_cholesky_spec hS, Matrix.mulVec_mulVec,
    Matrix.mul_nonsing_inv S (isUnit_iff_ne_zero.mpr (ne_of_gt hS.det_pos)),
    Matrix.one_mulVec]

/-- The input matrix of the Cholesky example, embedded from
src/warp/examples/tile/example_tile_cholesky.py: the TILE×TILE all-ones
matrix plus 5 times the identity (TILE = 32), so every off-diagonal entry is
1 and every diagonal entry is 6. -/
def A_ex : Matrix (Fin 32) (Fin 32) ℝ := fun i j => 1 + if i = j then 5 else 0

/-- The right-hand side of the Cholesky example, embedded from the source:
np.arange(TILE) as a column, so entry i is i. -/
def X_ex : Fin 32 → ℝ := fun i => (i : ℝ)

/-- Matrix-vector product with the example matrix in closed form. -/
lemma A_ex_mulVec (x : Fin 32 → ℝ) (i : Fin 32) :
    (A_ex *ᵥ x) i = (∑ j, x j) + 5 * x i := by
  unfold A_ex
  simp only [Matrix.mulVec, Matrix.dotProduct, add_mul, one_mul, ite_mul,
    zero_mul]
  rw [Finset.sum_add_distrib, Finset.sum_ite_eq]
  simp

/-- Quadratic form of the example matrix: a square plus five times a sum of
squares. -/
lemma A_ex_quad (x : Fin 32 → ℝ) :
    Matrix.dotProduct x (A_ex *ᵥ x) = (∑ j, x j) ^ 2 + 5 * ∑ i, x i ^ 2 := by
  unfold Matrix.dotProduct
  have h : ∀ i, x i * (A_ex *ᵥ x) i = x i * (∑ j, x j) + 5 * x i ^ 2 := by
    intro i
    rw [A_ex_mulVec]
    ring
  rw [Finset.sum_congr rfl (fun i _ => h i), Finset.sum_add_distrib,
    ← Finset.sum_mul, ← Finset.mul_sum]
  ring

/-- The example matrix is positive definite. -/
lemma A_ex_posDef : A_ex.PosDef := by
  constructor
  · ext i j
    simp only [Matrix.conjTranspose_apply, star_trivial]
    unfold A_ex
    by_cases h : i = j
    · subst h; rfl
    · rw [if_neg h, if_neg (fun hh => h hh.symm)]
  · intro x hx
    have hx2 : ∃ i, x i ≠ 0 := by
      by_contra h
      push_neg at h
      exact hx (funext fun i => h i)
    obtain ⟨i, hi⟩ := hx2
    have hq : Matrix.dotProduct (star x) (A_ex *ᵥ x) =
        (∑ j, x j) ^ 2 + 5 * ∑ i, x i ^ 2 := by
      rw [star_trivial, A_ex_quad]
    rw [hq]
    have h1 : (0 : ℝ) < ∑ i, x i ^ 2 :=
      Finset.sum_pos' (fun i _ => sq_nonneg (x i))
        ⟨i, Finset.mem_univ i, by positivity⟩
    have h2 : (0 : ℝ) ≤ (∑ j, x j) ^ 2 := sq_nonneg _
    linarith

/-- The final assertion of the example driver: both np.allclose checks must
hold, otherwise the script terminates with an AssertionError and there is no
recovery path. -/
def exampleGate (closeY closeL : Bool) : Except String Unit :=
  if closeY && closeL then Except.ok () else Except.error "AssertionError"

/-- The factor computed by the example's kernel launch on the concrete input,
the modelled wp.tile_cholesky applied to the single 32×32 tile of A. -/
noncomputable def L_ex : Matrix (Fin 32) (Fin 32) ℝ :=
  letI : WellFoundedLT (Fin 32) := inferInstance
  tile_cholesky A_ex_posDef

/-- The solve output computed by the example's kernel launch, the modelled
wp.tile_cholesky_solve applied to the factor and the 32×1 tile of X. -/
noncomputable def Y_ex : Fin 32 → ℝ := tile_cholesky_solve L_ex X_ex

/-- C1: for the Cholesky example driver, with the symmetric positive-definite
input A (ones plus 5·identity, 32×32) and right-hand side X = arange(32): the
kernel's factor L satisfies L·Lᵗ = A exactly in idealized real arithmetic
(hence within any nonnegative tolerance, stated here in np.allclose form with
numpy's default atol 1e-8 and rtol 1e-5); L is lower triangular with positive
diagonal and equals every lower-triangular positive-diagonal factor of A — in
particular the trusted dense reference numpy.linalg.cholesky, which returns
exactly that factor; the solve output Y satisfies A·Y = X and agrees with any
trusted reference solution of A·Y = X (in particular numpy's solve); and the
driver's gate accepts exactly when both allclose checks pass — any mismatch
beyond tolerance is a hard assertion failure with no recovery path. -/
theorem claim_C1 :
    A_ex.PosDef ∧
    L_ex * L_exᵀ = A_ex ∧
    (∀ i j, |(L_ex * L_exᵀ) i j - A_ex i j| ≤ 1e-8 + 1e-5 * |A_ex i j|) ∧
    (∀ i j : Fin 32, i < j → L_ex i j = 0) ∧
    (∀ i : Fin 32, 0 < L_ex i i) ∧
    (∀ Lnp : Matrix (Fin 32) (Fin 32) ℝ,
      (∀ i j, i < j → Lnp i j = 0) → (∀ i, 0 < Lnp i i) →
      Lnp * Lnpᵀ = A_ex → L_ex = Lnp) ∧
    A_ex *ᵥ Y_ex = X_ex ∧
    (∀ ynp : Fin 32 → ℝ, A_ex *ᵥ ynp = X_ex → Y_ex = ynp) ∧
    (∀ closeY closeL : Bool,
      exampleGate closeY closeL = Except.ok () ↔
        closeY = true ∧ closeL = true) := by
  have hfact : L_ex * L_exᵀ = A_ex := by
    letI : WellFoundedLT (Fin 32) := inferInstance
    unfold L_ex
    exact tile_cholesky_spec A_ex_posDef
  have hsolve : A_ex *ᵥ Y_ex = X_ex := by
    letI : WellFoundedLT (Fin 32) := inferInstance
    unfold Y_ex L_ex
    exact tile_cholesky_solve_spec A_ex_posDef X_ex
  have hlowBT : L_ex.BlockTriangular OrderDual.toDual := by
    letI : WellFoundedLT (Fin 32) := inferInstance
    unfold L_ex
    exact tile_cholesky_blockTriangular A_ex_posDef
  have hdiagpos : ∀ i, 0 < L_ex i i := by
    letI : WellFoundedLT (Fin 32) := inferInstance
    intro i
    unfold L_ex
    exact tile_cholesky_diag_pos A_ex_posDef i
  have hlow : ∀ i j : Fin 32, i < j → L_ex i j = 0 := fun i j h =>
    hlowBT (OrderDual.toDual_lt_toDual.mpr h)
  refine ⟨A_ex_posDef, hfact, ?_, hlow, hdiagpos, ?_, hsolve, ?_, ?_⟩
  · intro i j
    rw [hfact, sub_self, abs_zero]
    positivity
  · intro Lnp hnlow hnpos hnfac
    have hnBT : Lnp.BlockTriangular OrderDual.toDual := by
      intro i j h
      exact hnlow i j (OrderDual.toDual_lt_toDual.mp h)
    exact lower_posDiag_factor_unique hlowBT hnBT hdiagpos hnpos
      (hfact.trans hnfac.symm)
  · intro ynp hy
    have hker : A_ex *ᵥ (Y_ex - ynp) = 0 := by
      rw [Matrix.mulVec_sub, hsolve, hy, sub_self]
    by_contra hne
    have hd : Y_ex - ynp ≠ 0 := fun h => hne (sub_eq_zero.mp h)
    have hpos := A_ex_posDef.2 (Y_ex - ynp) hd
    rw [hker, Matrix.dotProduct_zero] at hpos
    exact lt_irrefl 0 hpos
  · intro closeY closeL
    cases closeY <;> cases closeL <;> simp [exampleGate]

/-- C8: the input matrix A constructed by the Cholesky example as
ones-plus-scaled-identity (the 32×32 all-ones matrix plus 5 times the
identity) is symmetric and positive definite, so the precondition of the
Cholesky factorization is guaranteed by construction. -/
theorem claim_C8 : A_exᵀ = A_ex ∧ A_ex.PosDef := by
  refine ⟨?_, A_ex_posDef⟩
  have h : A_exᴴ = A_ex := A_ex_posDef.1
  rw [conjTranspose_eq_transpose_real] at h
  exact h

end WarpTile
